/-
Verification of the sysex-toolkit codec layer of the idmlatentspace repository.

The development shallowly embeds the Python sources that ship with the
repository (sysex_toolkit/analyzer.py, sysex_toolkit/batch.py and the
configs/access_virus.json schema configuration, all embedded verbatim in the
package-creation script) as executable Lean definitions, and proves the
behavioural properties stated in the specification against them.  The core
Parameter Codec (sysex_toolkit/core.py, extracted from a sysex_toolkit.py file
that is not part of the repository sources) is modelled from the
specification where needed.

Bytes are modelled as natural numbers (values 0..255); byte strings as
List Nat.  Python bytes.find(t, s) is findFrom, Python slicing is drop/take.
-/

import Mathlib

namespace SysexToolkit

/-! ### Message descriptors produced by SysExAnalyzer.analyze_unknown_sysex -/

/-- One entry of the analysis dictionary's sysex_messages list, mirroring the
message_info dictionary built in sysex_toolkit/analyzer.py. -/
structure MessageInfo where
  message_id : Nat
  start_offset : Nat
  msg_length : Nat
  manufacturer_id : List Nat
  hex_preview : String
deriving DecidableEq

/-- The analysis dictionary returned by analyze_unknown_sysex.  The source also
initialises a manufacturer_analysis key to an empty dictionary and never
populates it, so it is omitted here. -/
structure UnknownAnalysis where
  file_size : Nat
  sysex_messages : List MessageInfo
deriving DecidableEq

/-- Lowercase hexadecimal digit, as produced by Python's bytes.hex. -/
def hexDigit (n : Nat) : Char :=
  if n < 10 then Char.ofNat (48 + n) else Char.ofNat (87 + n)

/-- Two lowercase hexadecimal digits for one byte. -/
def byteHex (b : Nat) : String :=
  String.mk [hexDigit (b / 16 % 16), hexDigit (b % 16)]

/-- Python message[:16].hex(' ') + ('...' if len(message) > 16 else ''). -/
def hexPreview (msg : List Nat) : String :=
  String.intercalate " " ((msg.take 16).map byteHex)
    ++ (if msg.length > 16 then "..." else "")

/-- Python bytes.find(target, start): the index of the first occurrence of
target at an index that is at least start, if any. -/
def findFrom : List Nat → Nat → Nat → Option Nat
  | [], _, _ => none
  | b :: rest, t, 0 => if b = t then some 0 else (findFrom rest t 0).map (· + 1)
  | _ :: rest, t, s + 1 => (findFrom rest t s).map (· + 1)

theorem findFrom_ge {l : List Nat} {t s i : Nat}
    (h : findFrom l t s = some i) : s ≤ i := by
  induction l generalizing s i with
  | nil => simp [findFrom] at h
  | cons b rest ih =>
    cases s with
    | zero => exact Nat.zero_le _
    | succ s =>
      rw [findFrom, Option.map_eq_some'] at h
      obtain ⟨j, hj, hji⟩ := h
      have := ih hj
      omega

theorem findFrom_lt_length {l : List Nat} {t s i : Nat}
    (h : findFrom l t s = some i) : i < l.length := by
  induction l generalizing s i with
  | nil => simp [findFrom] at h
  | cons b rest ih =>
    cases s with
    | zero =>
      rw [findFrom] at h
      by_cases hb : b = t
      · rw [if_pos hb] at h
        obtain rfl : (0 : Nat) = i := by injection h
        simp
      · rw [if_neg hb, Option.map_eq_some'] at h
        obtain ⟨j, hj, hji⟩ := h
        have := ih hj
        simp only [List.length_cons]
        omega
    | succ s =>
      rw [findFrom, Option.map_eq_some'] at h
      obtain ⟨j, hj, hji⟩ := h
      have := ih hj
      simp only [List.length_cons]
      omega

theorem findFrom_getD {l : List Nat} {t s i : Nat}
    (h : findFrom l t s = some i) : l.getD i 0 = t := by
  induction l generalizing s i with
  | nil => simp [findFrom] at h
  | cons b rest ih =>
    cases s with
    | zero =>
      rw [findFrom] at h
      by_cases hb : b = t
      · rw [if_pos hb] at h
        obtain rfl : (0 : Nat) = i := by injection h
        simpa using hb
      · rw [if_neg hb, Option.map_eq_some'] at h
        obtain ⟨j, hj, hji⟩ := h
        obtain rfl : j + 1 = i := hji
        simpa using ih hj
    | succ s =>
      rw [findFrom, Option.map_eq_some'] at h
      obtain ⟨j, hj, hji⟩ := h
      obtain rfl : j + 1 = i := hji
      simpa using ih hj

theorem findFrom_min {l : List Nat} {t s i : Nat}
    (h : findFrom l t s = some i) :
    ∀ j, s ≤ j → j < i → l.getD j 0 ≠ t := by
  induction l generalizing s i with
  | nil => simp [findFrom] at h
  | cons b rest ih =>
    cases s with
    | zero =>
      rw [findFrom] at h
      by_cases hb : b = t
      · rw [if_pos hb] at h
        obtain rfl : (0 : Nat) = i := by injection h
        omega
      · rw [if_neg hb, Option.map_eq_some'] at h
        obtain ⟨k, hk, hki⟩ := h
        obtain rfl : k + 1 = i := hki
        intro j _ hj
        cases j with
        | zero => simpa using hb
        | succ j =>
          simpa using ih hk j (Nat.zero_le _) (Nat.lt_of_succ_lt_succ hj)
    | succ s =>
      rw [findFrom, Option.map_eq_some'] at h
      obtain ⟨k, hk, hki⟩ := h
      obtain rfl : k + 1 = i := hki
      intro j hs hj
      cases j with
      | zero => omega
      | succ j =>
        simpa using ih hk j (Nat.le_of_succ_le_succ hs) (Nat.lt_of_succ_lt_succ hj)

/-- The scan loop of analyze_unknown_sysex: starting at scan position pos with
count messages already recorded, produce the remaining message_info entries.
Mirrors the while-loop of the source: find the next 0xF0 at or after pos, the
next 0xF7 at or after that, record the slice between them (both markers
included) and resume just past the end marker. -/
def scanLoop (data : List Nat) (pos : Nat) (count : Nat) : List MessageInfo :=
  if _h : pos < data.length then
    match hs : findFrom data 240 pos with
    | none => []
    | some s =>
      match he : findFrom data 247 s with
      | none => []
      | some e =>
        let msg := (data.drop s).take (e + 1 - s)
        { message_id := count + 1
          start_offset := s
          msg_length := msg.length
          manufacturer_id := if msg.length > 3 then (msg.drop 1).take 3 else []
          hex_preview := hexPreview msg }
          :: scanLoop data (e + 1) (count + 1)
  else []
termination_by data.length - pos
decreasing_by
  have h1 := findFrom_ge hs
  have h2 := findFrom_ge he
  omega

/-- Shallow embedding of SysExAnalyzer.analyze_unknown_sysex from
sysex_toolkit/analyzer.py, applied to the bytes read from the file.  The
function is total: the scan loop's termination is established by the strictly
increasing scan position. -/
def analyze_unknown_sysex (data : List Nat) : UnknownAnalysis :=
  { file_size := data.length
    sysex_messages := scanLoop data 0 0 }

/-! ### Unfolding lemmas for the scan loop -/

theorem scanLoop_of_le {data : List Nat} {pos count : Nat}
    (h : ¬ pos < data.length) : scanLoop data pos count = [] := by
  rw [scanLoop]
  simp [h]

theorem scanLoop_of_no_start {data : List Nat} {pos count : Nat}
    (h : pos < data.length) (hs : findFrom data 240 pos = none) :
    scanLoop data pos count = [] := by
  rw [scanLoop, dif_pos h]
  split
  · rfl
  · rename_i s heq
    rw [hs] at heq
    cases heq

theorem scanLoop_of_no_end {data : List Nat} {pos count s : Nat}
    (h : pos < data.length) (hs : findFrom data 240 pos = some s)
    (he : findFrom data 247 s = none) :
    scanLoop data pos count = [] := by
  rw [scanLoop, dif_pos h]
  split
  · rename_i heq
    rw [hs] at heq
  · rename_i s2 heq
    rw [hs] at heq
    injection heq with heq2
    subst heq2
    split
    · rfl
    · rename_i e2 heq3
      rw [he] at heq3
      simp at heq3

theorem scanLoop_of_found {data : List Nat} {pos count s e : Nat}
    (h : pos < data.length) (hs : findFrom data 240 pos = some s)
    (he : findFrom data 247 s = some e) :
    scanLoop data pos count =
      { message_id := count + 1
        start_offset := s
        msg_length := ((data.drop s).take (e + 1 - s)).length
        manufacturer_id :=
          if ((data.drop s).take (e + 1 - s)).length > 3 then
            (((data.drop s).take (e + 1 - s)).drop 1).take 3
          else []
        hex_preview := hexPreview ((data.drop s).take (e + 1 - s)) }
        :: scanLoop data (e + 1) (count + 1) := by
  rw [scanLoop, dif_pos h]
  split
  · rename_i heq
    rw [hs] at heq
    cases heq
  · rename_i s2 heq
    rw [hs] at heq
    injection heq with heq2
    subst heq2
    split
    · rename_i heq3
      rw [he] at heq3
      cases heq3
    · rename_i e2 heq3
      rw [he] at heq3
      injection heq3 with heq4
      subst heq4
      rfl

/-! ### Spec-side greedy pair counting

The specification describes the analyzer (and framer) contract as
left-to-right greedy matching of start/end marker pairs.  The following
one-pass state machine follows the spec words directly: in the searching-start
state a start marker (0xF0) switches to the searching-end state; in the
searching-end state an end marker (0xF7) completes one pair and returns to
searching-start; every other byte is noise and is skipped.  It is the
independent, spec-derived count against which the scan loop is compared. -/

/-- Number of well-formed start/end marker pairs under left-to-right greedy
scanning, starting in state insideMsg (true once a start marker has been seen
and its end marker is still pending). -/
def specGreedyPairs : List Nat → Bool → Nat
  | [], _ => 0
  | b :: rest, false => specGreedyPairs rest (decide (b = 240))
  | b :: rest, true =>
      if b = 247 then specGreedyPairs rest false + 1 else specGreedyPairs rest true

/-- First index of a target byte in a list, structurally. -/
def firstIdx (t : Nat) : List Nat → Option Nat
  | [] => none
  | b :: rest => if b = t then some 0 else (firstIdx t rest).map (· + 1)

theorem findFrom_eq_firstIdx (t : Nat) :
    ∀ (l : List Nat) (s : Nat), findFrom l t s = (firstIdx t (l.drop s)).map (s + ·) := by
  intro l
  induction l with
  | nil => intro s; simp [findFrom, firstIdx]
  | cons b rest ih =>
    intro s
    cases s with
    | zero =>
      rw [findFrom]
      by_cases hb : b = t
      · simp [firstIdx, hb]
      · rw [if_neg hb, ih 0]
        simp only [List.drop_zero, firstIdx, if_neg hb]
        cases firstIdx t rest with
        | none => rfl
        | some j => simp
    | succ s =>
      rw [findFrom, ih s]
      simp only [List.drop_succ_cons]
      cases firstIdx t (rest.drop s) with
      | none => rfl
      | some j =>
        simp
        omega

theorem specGreedyPairs_false_of_none {l : List Nat}
    (h : firstIdx 240 l = none) : specGreedyPairs l false = 0 := by
  induction l with
  | nil => rfl
  | cons b rest ih =>
    rw [firstIdx] at h
    by_cases hb : b = 240
    · rw [if_pos hb] at h
      cases h
    · rw [if_neg hb] at h
      rw [specGreedyPairs, decide_eq_false hb]
      exact ih (by cases hfi : firstIdx 240 rest <;> simp [hfi] at h ⊢)

theorem specGreedyPairs_true_of_none {l : List Nat}
    (h : firstIdx 247 l = none) : specGreedyPairs l true = 0 := by
  induction l with
  | nil => rfl
  | cons b rest ih =>
    rw [firstIdx] at h
    by_cases hb : b = 247
    · rw [if_pos hb] at h
      cases h
    · rw [if_neg hb] at h
      rw [specGreedyPairs, if_neg hb]
      exact ih (by cases hfi : firstIdx 247 rest <;> simp [hfi] at h ⊢)

theorem specGreedyPairs_false_of_some {l : List Nat} {i : Nat}
    (h : firstIdx 240 l = some i) :
    specGreedyPairs l false = specGreedyPairs (l.drop (i + 1)) true := by
  induction l generalizing i with
  | nil => cases h
  | cons b rest ih =>
    rw [firstIdx] at h
    by_cases hb : b = 240
    · rw [if_pos hb] at h
      injection h with h2
      subst h2
      rw [specGreedyPairs, decide_eq_true hb]
      rfl
    · rw [if_neg hb, Option.map_eq_some'] at h
      obtain ⟨j, hj, hji⟩ := h
      obtain rfl : j + 1 = i := hji
      rw [specGreedyPairs, decide_eq_false hb, ih hj]
      rfl

theorem specGreedyPairs_true_of_some {l : List Nat} {i : Nat}
    (h : firstIdx 247 l = some i) :
    specGreedyPairs l true = specGreedyPairs (l.drop (i + 1)) false + 1 := by
  induction l generalizing i with
  | nil => cases h
  | cons b rest ih =>
    rw [firstIdx] at h
    by_cases hb : b = 247
    · rw [if_pos hb] at h
      injection h with h2
      subst h2
      rw [specGreedyPairs, if_pos hb]
      rfl
    · rw [if_neg hb, Option.map_eq_some'] at h
      obtain ⟨j, hj, hji⟩ := h
      obtain rfl : j + 1 = i := hji
      rw [specGreedyPairs, if_neg hb, ih hj]
      rfl

/-- The scan loop of the analyzer records exactly as many messages as the
spec-side greedy pair count over the unscanned tail of the stream. -/
theorem scanLoop_length_specGreedy (data : List Nat) :
    ∀ n pos count, data.length - pos ≤ n →
      (scanLoop data pos count).length = specGreedyPairs (data.drop pos) false := by
  intro n
  induction n with
  | zero =>
    intro pos count hn
    have hge : ¬ pos < data.length := by omega
    rw [scanLoop_of_le hge, List.drop_eq_nil_of_le (by omega)]
    rfl
  | succ n ih =>
    intro pos count hn
    by_cases hp : pos < data.length
    · cases hs : findFrom data 240 pos with
      | none =>
        rw [scanLoop_of_no_start hp hs]
        have hfe := findFrom_eq_firstIdx 240 data pos
        rw [hs] at hfe
        cases hfi : firstIdx 240 (data.drop pos) with
        | none => rw [specGreedyPairs_false_of_none hfi]; rfl
        | some j => rw [hfi] at hfe; simp at hfe
      | some s =>
        have hfe := findFrom_eq_firstIdx 240 data pos
        rw [hs] at hfe
        have hfe2 := hfe.symm
        rw [Option.map_eq_some'] at hfe2
        obtain ⟨j, hj, hjs⟩ := hfe2
        have hslt : s < data.length := findFrom_lt_length hs
        have hsge : pos ≤ s := findFrom_ge hs
        have hstep : specGreedyPairs (data.drop pos) false
            = specGreedyPairs (data.drop (s + 1)) true := by
          rw [specGreedyPairs_false_of_some hj, List.drop_drop]
          have harith : pos + (j + 1) = s + 1 := by omega
          rw [harith]
        have hdecomp : data.drop s = data.getD s 0 :: data.drop (s + 1) := by
          rw [List.getD_eq_getElem data 0 hslt]
          exact List.drop_eq_getElem_cons hslt
        cases he : findFrom data 247 s with
        | none =>
          rw [scanLoop_of_no_end hp hs he, hstep]
          have hfe3 := findFrom_eq_firstIdx 247 data s
          rw [he] at hfe3
          cases hfi2 : firstIdx 247 (data.drop s) with
          | some k => rw [hfi2] at hfe3; simp at hfe3
          | none =>
            rw [hdecomp, firstIdx] at hfi2
            have htail : firstIdx 247 (data.drop (s + 1)) = none := by
              by_cases hz : data.getD s 0 = 247
              · rw [if_pos hz] at hfi2
                cases hfi2
              · rw [if_neg hz] at hfi2
                cases hfi3 : firstIdx 247 (data.drop (s + 1)) with
                | none => rfl
                | some v => rw [hfi3] at hfi2; simp at hfi2
            rw [specGreedyPairs_true_of_none htail]
            rfl
        | some e =>
          have hfe3 := findFrom_eq_firstIdx 247 data s
          rw [he] at hfe3
          have hfe4 := hfe3.symm
          rw [Option.map_eq_some'] at hfe4
          obtain ⟨k, hk, hke⟩ := hfe4
          have hege : s ≤ e := findFrom_ge he
          have hstart : data.getD s 0 = 240 := findFrom_getD hs
          have hne : e ≠ s := by
            intro hcontra
            have := findFrom_getD he
            rw [hcontra] at this
            rw [hstart] at this
            omega
          rw [hdecomp, hstart, firstIdx, if_neg (by omega), Option.map_eq_some'] at hk
          obtain ⟨k2, hk2, hk2e⟩ := hk
          have htail : specGreedyPairs (data.drop (s + 1)) true
              = specGreedyPairs (data.drop (e + 1)) false + 1 := by
            rw [specGreedyPairs_true_of_some hk2, List.drop_drop]
            have harith2 : s + 1 + (k2 + 1) = e + 1 := by omega
            rw [harith2]
          rw [scanLoop_of_found hp hs he, hstep, htail]
          simp only [List.length_cons]
          rw [ih (e + 1) (count + 1) (by omega)]
    · rw [scanLoop_of_le hp, List.drop_eq_nil_of_le (by omega)]
      rfl

/-- Structural facts about every message descriptor the scan loop records:
it starts at or after the scan position, spans from a start marker to the
first end marker after it (both counted in its length), stays inside the
stream, and its manufacturer_id is the three bytes after the start marker
when the message is longer than three bytes and empty otherwise. -/
theorem scanLoop_elem_props (data : List Nat) :
    ∀ n pos count, data.length - pos ≤ n →
      ∀ m ∈ scanLoop data pos count,
        pos ≤ m.start_offset
        ∧ 2 ≤ m.msg_length
        ∧ m.start_offset + m.msg_length ≤ data.length
        ∧ data.getD m.start_offset 0 = 240
        ∧ data.getD (m.start_offset + m.msg_length - 1) 0 = 247
        ∧ (∀ j, m.start_offset ≤ j → j < m.start_offset + m.msg_length - 1 →
            data.getD j 0 ≠ 247)
        ∧ m.manufacturer_id
            = (if 3 < m.msg_length then (data.drop (m.start_offset + 1)).take 3
               else []) := by
  intro n
  induction n with
  | zero =>
    intro pos count hn m hm
    rw [scanLoop_of_le (by omega)] at hm
    cases hm
  | succ n ih =>
    intro pos count hn m hm
    by_cases hp : pos < data.length
    · cases hs : findFrom data 240 pos with
      | none =>
        rw [scanLoop_of_no_start hp hs] at hm
        cases hm
      | some s =>
        cases he : findFrom data 247 s with
        | none =>
          rw [scanLoop_of_no_end hp hs he] at hm
          cases hm
        | some e =>
          rw [scanLoop_of_found hp hs he] at hm
          have hsge := findFrom_ge hs
          have hslt := findFrom_lt_length hs
          have hege := findFrom_ge he
          have helt := findFrom_lt_length he
          have hgs := findFrom_getD hs
          have hge2 := findFrom_getD he
          have hne : s ≠ e := by
            intro hq
            rw [hq, hge2] at hgs
            omega
          have hlen : ((data.drop s).take (e + 1 - s)).length = e + 1 - s := by
            simp only [List.length_take, List.length_drop]
            omega
          cases hm with
          | head =>
            refine ⟨hsge, ?_, ?_, ?_, ?_, ?_, ?_⟩
            · simp only [hlen]
              omega
            · simp only [hlen]
              omega
            · simpa using hgs
            · simp only [hlen]
              have harr : s + (e + 1 - s) - 1 = e := by omega
              rw [harr]
              exact hge2
            · simp only [hlen]
              intro j hj1 hj2
              exact findFrom_min he j hj1 (by omega)
            · simp only [hlen]
              by_cases h3 : 3 < e + 1 - s
              · rw [if_pos (by simpa [hlen] using h3), if_pos h3]
                rw [List.drop_take, List.drop_drop, List.take_take]
                have hmin : min 3 (e + 1 - s - 1) = 3 := by omega
                have hsd : s + 1 = 1 + s := by omega
                rw [hmin, hsd]
              · rw [if_neg (by simpa [hlen] using h3), if_neg h3]
          | tail _ hm2 =>
            have hrec := ih (e + 1) (count + 1) (by omega) m hm2
            exact ⟨by omega, hrec.2⟩
    · rw [scanLoop_of_le hp] at hm
      cases hm

/-- Consecutive descriptors recorded by the scan loop are non-overlapping and
their start offsets strictly increase. -/
theorem scanLoop_chain (data : List Nat) :
    ∀ n pos count, data.length - pos ≤ n →
      List.Chain'
        (fun a b => a.start_offset + a.msg_length ≤ b.start_offset
          ∧ a.start_offset < b.start_offset)
        (scanLoop data pos count) := by
  intro n
  induction n with
  | zero =>
    intro pos count hn
    rw [scanLoop_of_le (by omega)]
    exact List.chain'_nil
  | succ n ih =>
    intro pos count hn
    by_cases hp : pos < data.length
    · cases hs : findFrom data 240 pos with
      | none =>
        rw [scanLoop_of_no_start hp hs]
        exact List.chain'_nil
      | some s =>
        cases he : findFrom data 247 s with
        | none =>
          rw [scanLoop_of_no_end hp hs he]
          exact List.chain'_nil
        | some e =>
          rw [scanLoop_of_found hp hs he]
          have hsge := findFrom_ge hs
          have hege := findFrom_ge he
          have helt := findFrom_lt_length he
          have hlen : ((data.drop s).take (e + 1 - s)).length = e + 1 - s := by
            simp only [List.length_take, List.length_drop]
            omega
          apply List.Chain'.cons' (ih (e + 1) (count + 1) (by omega))
          intro y hy
          have hymem := List.mem_of_mem_head? hy
          have hyp := scanLoop_elem_props data n (e + 1) (count + 1) (by omega) y hymem
          simp only [hlen]
          omega
    · rw [scanLoop_of_le hp]
      exact List.chain'_nil

/-- The scan loop numbers its descriptors consecutively starting one past the
running count. -/
theorem scanLoop_ids (data : List Nat) :
    ∀ n pos count, data.length - pos ≤ n →
      (scanLoop data pos count).map MessageInfo.message_id
        = List.range' (count + 1) (scanLoop data pos count).length := by
  intro n
  induction n with
  | zero =>
    intro pos count hn
    rw [scanLoop_of_le (by omega)]
    rfl
  | succ n ih =>
    intro pos count hn
    by_cases hp : pos < data.length
    · cases hs : findFrom data 240 pos with
      | none =>
        rw [scanLoop_of_no_start hp hs]
        rfl
      | some s =>
        cases he : findFrom data 247 s with
        | none =>
          rw [scanLoop_of_no_end hp hs he]
          rfl
        | some e =>
          have hsge := findFrom_ge hs
          have hege := findFrom_ge he
          rw [scanLoop_of_found hp hs he]
          simp only [List.map_cons, List.length_cons]
          rw [ih (e + 1) (count + 1) (by omega)]
          rfl
    · rw [scanLoop_of_le hp]
      rfl

/-! ### Claim theorems about the unknown-format analyzer -/

/-- C4: for every byte sequence containing exactly k well-formed
start-marker/end-marker pairs under left-to-right greedy scanning, with any
amount of surrounding noise, analyze_unknown_sysex records exactly k message
descriptors in its sysex_messages list; a trailing start marker with no
following end marker contributes no descriptor.  The greedy pair count is the
independent one-pass state machine specGreedyPairs started in the
searching-start state. -/
theorem analyzer_reports_exactly_greedy_pair_count (data : List Nat) :
    ((analyze_unknown_sysex data).sysex_messages).length
      = specGreedyPairs data false := by
  have h := scanLoop_length_specGreedy data data.length 0 0 (by omega)
  simpa [analyze_unknown_sysex] using h

/-- C5: analyze_unknown_sysex is total on arbitrary input (the embedding is a
total function, the scan loop's termination being proven from the strictly
increasing scan position); the returned record's file_size equals the length
of the input byte stream and carries the full message-descriptor list, and on
empty input the message list is empty. -/
theorem analyzer_total_with_file_size (data : List Nat) :
    (analyze_unknown_sysex data).file_size = data.length
      ∧ (analyze_unknown_sysex data).sysex_messages = scanLoop data 0 0
      ∧ (analyze_unknown_sysex []).sysex_messages = [] := by
  refine ⟨rfl, rfl, ?_⟩
  have h : (analyze_unknown_sysex []).sysex_messages = scanLoop [] 0 0 := rfl
  rw [h, scanLoop_of_le (by simp)]

/-- C6: the message descriptors returned by analyze_unknown_sysex appear in
stream order and are non-overlapping: message_id numbers them consecutively
from 1, consecutive descriptors satisfy start + length ≤ next start with
strictly increasing start offsets, and each descriptor spans from a start
marker to the first end marker after it, its length counting both markers. -/
theorem analyzer_messages_ordered_nonoverlapping (data : List Nat) :
    ((analyze_unknown_sysex data).sysex_messages).map MessageInfo.message_id
      = List.range' 1 ((analyze_unknown_sysex data).sysex_messages).length
    ∧ List.Chain'
        (fun a b => a.start_offset + a.msg_length ≤ b.start_offset
          ∧ a.start_offset < b.start_offset)
        ((analyze_unknown_sysex data).sysex_messages)
    ∧ ∀ m ∈ (analyze_unknown_sysex data).sysex_messages,
        2 ≤ m.msg_length
        ∧ m.start_offset + m.msg_length ≤ data.length
        ∧ data.getD m.start_offset 0 = 240
        ∧ data.getD (m.start_offset + m.msg_length - 1) 0 = 247
        ∧ (∀ j, m.start_offset ≤ j → j < m.start_offset + m.msg_length - 1 →
            data.getD j 0 ≠ 247) := by
  refine ⟨?_, ?_, ?_⟩
  · exact scanLoop_ids data data.length 0 0 (by omega)
  · exact scanLoop_chain data data.length 0 0 (by omega)
  · intro m hm
    have h := scanLoop_elem_props data data.length 0 0 (by omega) m hm
    exact ⟨h.2.1, h.2.2.1, h.2.2.2.1, h.2.2.2.2.1, h.2.2.2.2.2.1⟩

/-- C10: in every recorded message descriptor, manufacturer_id equals the
three bytes immediately following the start marker when the framed message is
longer than 3 bytes, and the empty list for any message of 3 bytes or fewer. -/
theorem analyzer_manufacturer_id_first_three_bytes (data : List Nat) :
    ∀ m ∈ (analyze_unknown_sysex data).sysex_messages,
      (3 < m.msg_length →
        m.manufacturer_id = (data.drop (m.start_offset + 1)).take 3)
      ∧ (m.msg_length ≤ 3 → m.manufacturer_id = []) := by
  intro m hm
  have h := (scanLoop_elem_props data data.length 0 0 (by omega) m hm).2.2.2.2.2.2
  constructor
  · intro h3
    rw [h, if_pos h3]
  · intro h3
    rw [h, if_neg (by omega)]

/-! ### Concrete sample streams used by the witnesses -/

/-- A five-byte stream holding one framed message with three identifier
bytes. -/
def sampleStream : List Nat := [240, 1, 2, 3, 247]

/-- The descriptor the analyzer records for sampleStream. -/
def sampleMsg : MessageInfo :=
  { message_id := 1, start_offset := 0, msg_length := 5,
    manufacturer_id := [1, 2, 3], hex_preview := "f0 01 02 03 f7" }

/-- A minimal two-byte framed message. -/
def tinyStream : List Nat := [240, 247]

/-- The descriptor the analyzer records for tinyStream. -/
def tinyMsg : MessageInfo :=
  { message_id := 1, start_offset := 0, msg_length := 2,
    manufacturer_id := [], hex_preview := "f0 f7" }

theorem sample_analysis :
    (analyze_unknown_sysex sampleStream).sysex_messages = [sampleMsg] := by
  simp [analyze_unknown_sysex, sampleStream, sampleMsg, scanLoop, findFrom,
    hexPreview, byteHex, hexDigit]
  rfl

theorem tiny_analysis :
    (analyze_unknown_sysex tinyStream).sysex_messages = [tinyMsg] := by
  simp [analyze_unknown_sysex, tinyStream, tinyMsg, scanLoop, findFrom,
    hexPreview, byteHex, hexDigit]
  rfl

/-- Witness for C6 at the concrete stream sampleStream. -/
theorem analyzer_messages_ordered_nonoverlapping_witness :
    2 ≤ sampleMsg.msg_length
    ∧ sampleMsg.start_offset + sampleMsg.msg_length ≤ sampleStream.length
    ∧ sampleStream.getD sampleMsg.start_offset 0 = 240
    ∧ sampleStream.getD (sampleMsg.start_offset + sampleMsg.msg_length - 1) 0 = 247 := by
  have hmem : sampleMsg ∈ (analyze_unknown_sysex sampleStream).sysex_messages := by
    rw [sample_analysis]
    exact List.mem_singleton.mpr rfl
  have h := (analyzer_messages_ordered_nonoverlapping sampleStream).2.2 sampleMsg hmem
  exact ⟨h.1, h.2.1, h.2.2.1, h.2.2.2.1⟩

/-- Witness for C10 at the concrete streams sampleStream and tinyStream. -/
theorem analyzer_manufacturer_id_first_three_bytes_witness :
    sampleMsg.manufacturer_id = (sampleStream.drop (sampleMsg.start_offset + 1)).take 3
    ∧ tinyMsg.manufacturer_id = [] := by
  have hmem1 : sampleMsg ∈ (analyze_unknown_sysex sampleStream).sysex_messages := by
    rw [sample_analysis]
    exact List.mem_singleton.mpr rfl
  have hmem2 : tinyMsg ∈ (analyze_unknown_sysex tinyStream).sysex_messages := by
    rw [tiny_analysis]
    exact List.mem_singleton.mpr rfl
  have h1 := (analyzer_manufacturer_id_first_three_bytes sampleStream sampleMsg hmem1).1
  have h2 := (analyzer_manufacturer_id_first_three_bytes tinyStream tinyMsg hmem2).2
  exact ⟨h1 (by decide), h2 (by decide)⟩

/-! ### Batch processor (sysex_toolkit/batch.py)

SysExBatchProcessor.batch_decode iterates over the candidate input files of a
directory (the .syx and .json globs), decodes each one inside a try/except,
appends a processed_files entry carrying the preset count on success and a
failed_files entry carrying the error on failure, and accumulates the preset
total.  The per-file work — decoder.decode_file plus the optional JSON dump,
either of which may raise — is abstracted as one function from a file to
Except: ok with the decoded preset list, or error with the captured
exception text.  Note that the recorded preset_count and the total_presets
increment are both Python len(presets) if presets else 0, which equals the
list length in both cases. -/

/-- One processed_files entry of the batch results dictionary. -/
structure ProcessedFile (F : Type) where
  input_file : F
  preset_count : Nat
deriving DecidableEq

/-- One failed_files entry of the batch results dictionary. -/
structure FailedFile (F E : Type) where
  file : F
  error : E
deriving DecidableEq

/-- The results dictionary built by batch_decode. -/
structure BatchResults (F E : Type) where
  processed_files : List (ProcessedFile F)
  failed_files : List (FailedFile F E)
  total_presets : Nat
deriving DecidableEq

/-- One iteration of the for-loop of batch_decode: try the per-file decode,
then append to the matching list and update the running total. -/
def batchStep {F E P : Type} (decodeFile : F → Except E (List P))
    (r : BatchResults F E) (f : F) : BatchResults F E :=
  match decodeFile f with
  | Except.ok presets =>
      { r with
        processed_files :=
          r.processed_files ++ [⟨f, presets.length⟩]
        total_presets := r.total_presets + presets.length }
  | Except.error e =>
      { r with failed_files := r.failed_files ++ [⟨f, e⟩] }

/-- Shallow embedding of SysExBatchProcessor.batch_decode from
sysex_toolkit/batch.py: fold the per-file step over the candidate files in
directory order, starting from empty lists and a zero total. -/
def batch_decode {F E P : Type} (decodeFile : F → Except E (List P))
    (sysex_files : List F) : BatchResults F E :=
  sysex_files.foldl (batchStep decodeFile) ⟨[], [], 0⟩

/-- The processed_files entry a file contributes when its decode succeeds. -/
def okEntry {F E P : Type} (decodeFile : F → Except E (List P)) (f : F) :
    Option (ProcessedFile F) :=
  match decodeFile f with
  | Except.ok presets => some ⟨f, presets.length⟩
  | Except.error _ => none

/-- The failed_files entry a file contributes when its decode raises. -/
def errEntry {F E P : Type} (decodeFile : F → Except E (List P)) (f : F) :
    Option (FailedFile F E) :=
  match decodeFile f with
  | Except.ok _ => none
  | Except.error e => some ⟨f, e⟩

/-- The preset count a file contributes to the running total. -/
def presetContribution {F E P : Type} (decodeFile : F → Except E (List P))
    (f : F) : Nat :=
  match decodeFile f with
  | Except.ok presets => presets.length
  | Except.error _ => 0

/-- Full characterisation of the batch fold: each output list is the
order-preserving projection of the input files through that file's own
outcome, and the total is the sum of the per-file contributions. -/
theorem batch_decode_eq {F E P : Type} (decodeFile : F → Except E (List P)) :
    ∀ (files : List F) (r : BatchResults F E),
      files.foldl (batchStep decodeFile) r =
        { processed_files :=
            r.processed_files ++ files.filterMap (okEntry decodeFile)
          failed_files := r.failed_files ++ files.filterMap (errEntry decodeFile)
          total_presets :=
            r.total_presets + (files.map (presetContribution decodeFile)).sum } := by
  intro files
  induction files with
  | nil => intro r; simp
  | cons f rest ih =>
    intro r
    rw [List.foldl_cons, ih]
    cases hd : decodeFile f with
    | ok presets =>
      simp [batchStep, okEntry, errEntry, presetContribution, hd]
      omega
    | error e =>
      simp [batchStep, okEntry, errEntry, presetContribution, hd]

/-- Every file contributes exactly one entry, to exactly one of the two
outcome projections. -/
theorem okEntry_errEntry_length {F E P : Type} (decodeFile : F → Except E (List P))
    (files : List F) :
    (files.filterMap (okEntry decodeFile)).length
        + (files.filterMap (errEntry decodeFile)).length
      = files.length := by
  induction files with
  | nil => rfl
  | cons f rest ih =>
    rw [List.filterMap_cons, List.filterMap_cons]
    cases hd : decodeFile f with
    | ok presets =>
      simp only [okEntry, errEntry, hd]
      simp at ih ⊢
      omega
    | error e =>
      simp only [okEntry, errEntry, hd]
      simp at ih ⊢
      omega

/-- C7: batch_decode places each candidate input file in exactly one of
processed_files or failed_files, so the two lists' lengths sum to the number
of inputs, and total_presets equals the sum of the per-file preset counts
recorded in processed_files — no double counting and no silent drops. -/
theorem batch_accounting {F E P : Type} (decodeFile : F → Except E (List P))
    (sysex_files : List F) :
    (batch_decode decodeFile sysex_files).processed_files.length
        + (batch_decode decodeFile sysex_files).failed_files.length
      = sysex_files.length
    ∧ (batch_decode decodeFile sysex_files).total_presets
      = ((batch_decode decodeFile sysex_files).processed_files.map
          ProcessedFile.preset_count).sum := by
  rw [batch_decode, batch_decode_eq]
  constructor
  · simp only [List.nil_append, List.length_nil, Nat.zero_add]
    exact okEntry_errEntry_length decodeFile sysex_files
  · simp only [List.nil_append, Nat.zero_add]
    induction sysex_files with
    | nil => rfl
    | cons f rest ih =>
      rw [List.filterMap_cons, List.map_cons]
      cases hd : decodeFile f with
      | ok presets =>
        simp [okEntry, presetContribution, hd] at ih ⊢
        omega
      | error e =>
        simp [okEntry, presetContribution, hd] at ih ⊢
        exact ih

/-- C8: if decoding one input file raises, batch_decode captures that error in
a failed_files entry keyed to the file, and the processed_files output is
exactly the per-file outcome projection of the whole input list — the
remaining files are processed unchanged.  batch_decode itself is a total
function returning this best-effort result. -/
theorem batch_error_captured_and_continues {F E P : Type}
    (decodeFile : F → Except E (List P)) (sysex_files : List F) (f : F) (e : E)
    (hmem : f ∈ sysex_files) (herr : decodeFile f = Except.error e) :
    (⟨f, e⟩ : FailedFile F E) ∈ (batch_decode decodeFile sysex_files).failed_files
    ∧ (batch_decode decodeFile sysex_files).processed_files
        = sysex_files.filterMap (okEntry decodeFile) := by
  rw [batch_decode, batch_decode_eq]
  refine ⟨?_, by simp⟩
  simp only [List.nil_append]
  exact List.mem_filterMap.mpr ⟨f, hmem, by simp [errEntry, herr]⟩

/-- Decoder used by the batch witnesses and counterexample: file 1 raises
error 7, every other file decodes to a single preset. -/
def wDecode : Nat → Except Nat (List Nat) :=
  fun f => if f = 1 then Except.error 7 else Except.ok [0]

/-- Input file list used by the batch witnesses and counterexample. -/
def wFiles : List Nat := [0, 1, 2]

/-- Witness for C8 at the concrete decoder wDecode and inputs wFiles. -/
theorem batch_error_captured_and_continues_witness :
    (⟨1, 7⟩ : FailedFile Nat Nat) ∈ (batch_decode wDecode wFiles).failed_files
    ∧ (batch_decode wDecode wFiles).processed_files
        = wFiles.filterMap (okEntry wDecode) :=
  batch_error_captured_and_continues wDecode wFiles 1 7 (by decide) (by rfl)

/-- C9 counterexample: with one failing input among three, the Batch Result
offers no single per-input outcome list of the input length in input order:
neither concatenation order of the two outcome lists restores the input
order, and neither list alone has the input length.  Here wDecode fails on
the middle file of wFiles = [0, 1, 2]. -/
theorem batch_single_ordered_output_counterexample :
    ((batch_decode wDecode wFiles).processed_files.map ProcessedFile.input_file
        ++ (batch_decode wDecode wFiles).failed_files.map FailedFile.file) ≠ wFiles
    ∧ ((batch_decode wDecode wFiles).failed_files.map FailedFile.file
        ++ (batch_decode wDecode wFiles).processed_files.map ProcessedFile.input_file)
        ≠ wFiles
    ∧ (batch_decode wDecode wFiles).processed_files.length ≠ wFiles.length
    ∧ (batch_decode wDecode wFiles).failed_files.length ≠ wFiles.length := by
  decide

/-- C9 (amended): the Batch Result splits the per-input outcomes into
processed_files and failed_files; each list preserves the input order
deterministically — it is the order-preserving projection of the inputs with
that outcome — and the two lists' lengths sum to the total number of
inputs. -/
theorem batch_outcome_lists_preserve_input_order {F E P : Type}
    (decodeFile : F → Except E (List P)) (sysex_files : List F) :
    (batch_decode decodeFile sysex_files).processed_files
      = sysex_files.filterMap (okEntry decodeFile)
    ∧ (batch_decode decodeFile sysex_files).failed_files
      = sysex_files.filterMap (errEntry decodeFile)
    ∧ (batch_decode decodeFile sysex_files).processed_files.length
        + (batch_decode decodeFile sysex_files).failed_files.length
      = sysex_files.length := by
  rw [batch_decode, batch_decode_eq]
  refine ⟨by simp, by simp, ?_⟩
  simp only [List.nil_append, List.length_nil, Nat.zero_add]
  exact okEntry_errEntry_length decodeFile sysex_files

/-! ### Schema model and the shipped Access Virus configuration

The parameter-descriptor record mirrors one entry of the parameters mapping
of sysex_toolkit/configs/access_virus.json; the schema record mirrors the
top-level fields of that file. -/

/-- One parameter descriptor, with the fields of the declarative schema
source. -/
structure ParamDescriptor where
  byte_offset : Nat
  bit_mask : Nat
  bit_shift : Nat
  value_range : Nat × Nat
  category : String
  cc_number : Nat
  data_type : String
  description : String
deriving DecidableEq

/-- A schema model, with the fields of the declarative schema source. -/
structure SysExSchema where
  name : String
  version : String
  manufacturer_id : List Nat
  device_id : Nat
  model_id : Nat
  preset_name_offset : Nat
  preset_name_length : Nat
  total_length : Nat
  parameters : List (String × ParamDescriptor)
deriving DecidableEq

/-- configs/access_virus.json, parameters.filter_cutoff. -/
def filter_cutoff : ParamDescriptor :=
  { byte_offset := 40, bit_mask := 255, bit_shift := 0, value_range := (0, 127),
    category := "filter", cc_number := 74, data_type := "uint8",
    description := "Filter cutoff frequency" }

/-- configs/access_virus.json, parameters.filter_resonance. -/
def filter_resonance : ParamDescriptor :=
  { byte_offset := 41, bit_mask := 255, bit_shift := 0, value_range := (0, 127),
    category := "filter", cc_number := 71, data_type := "uint8",
    description := "Filter resonance" }

/-- configs/access_virus.json, parameters.filter_env_amount. -/
def filter_env_amount : ParamDescriptor :=
  { byte_offset := 42, bit_mask := 255, bit_shift := 0, value_range := (0, 127),
    category := "filter", cc_number := 72, data_type := "uint8",
    description := "Filter envelope amount" }

/-- configs/access_virus.json, parameters.lfo1_rate. -/
def lfo1_rate : ParamDescriptor :=
  { byte_offset := 70, bit_mask := 255, bit_shift := 0, value_range := (0, 127),
    category := "lfo", cc_number := 76, data_type := "uint8",
    description := "LFO 1 rate" }

/-- configs/access_virus.json, parameters.lfo1_amount. -/
def lfo1_amount : ParamDescriptor :=
  { byte_offset := 72, bit_mask := 255, bit_shift := 0, value_range := (0, 127),
    category := "lfo", cc_number := 77, data_type := "uint8",
    description := "LFO 1 amount" }

/-- The parameters mapping of configs/access_virus.json. -/
def accessVirusParameters : List (String × ParamDescriptor) :=
  [("filter_cutoff", filter_cutoff),
   ("filter_resonance", filter_resonance),
   ("filter_env_amount", filter_env_amount),
   ("lfo1_rate", lfo1_rate),
   ("lfo1_amount", lfo1_amount)]

/-- The full shipped Access Virus C schema of configs/access_virus.json. -/
def accessVirusSchema : SysExSchema :=
  { name := "Access Virus C", version := "1.0", manufacturer_id := [0, 32, 51],
    device_id := 1, model_id := 0, preset_name_offset := 200,
    preset_name_length := 16, total_length := 256,
    parameters := accessVirusParameters }

/-- The raw value a descriptor extracts from a message byte: apply the bit
mask, then right-shift (spec section 4.3). -/
def rawFromByte (d : ParamDescriptor) (b : Nat) : Nat :=
  (b &&& d.bit_mask) >>> d.bit_shift

/-- C3 counterexample: the claim fails on the shipped configuration at the
explicit input byte b = 128 for the filter_cutoff descriptor (bit_mask 255,
bit_shift 0, value_range [0, 127]): the extracted raw value is 128, outside
the declared range, so the mask-and-shift image of the full byte range 0..255
is not contained in the declared range for the shipped descriptors. -/
theorem access_virus_range_invariant_counterexample :
    ("filter_cutoff", filter_cutoff) ∈ accessVirusParameters
    ∧ (128 : Nat) ≤ 255
    ∧ rawFromByte filter_cutoff 128 = 128
    ∧ ¬ (filter_cutoff.value_range.1 ≤ rawFromByte filter_cutoff 128
          ∧ rawFromByte filter_cutoff 128 ≤ filter_cutoff.value_range.2)
    ∧ ¬ (∀ p ∈ accessVirusParameters, ∀ b, b ≤ 255 →
          p.2.value_range.1 ≤ rawFromByte p.2 b
            ∧ rawFromByte p.2 b ≤ p.2.value_range.2) := by
  refine ⟨by decide, by decide, by decide, by decide, ?_⟩
  intro hall
  have h := hall ("filter_cutoff", filter_cutoff) (by decide) 128 (by decide)
  revert h
  decide

/-- C3 (amended): for every descriptor of the shipped Access Virus schema
configuration and every 7-bit data byte value b in 0..127 — the domain of
MIDI SysEx data bytes — the raw value obtained by applying the descriptor's
bit_mask and right-shifting by bit_shift falls within the descriptor's
declared inclusive value_range. -/
theorem access_virus_descriptors_range_closed_7bit :
    ∀ p ∈ accessVirusParameters, ∀ b, b ≤ 127 →
      p.2.value_range.1 ≤ rawFromByte p.2 b
        ∧ rawFromByte p.2 b ≤ p.2.value_range.2 := by
  decide

/-- Witness for the amended C3 at the filter_cutoff descriptor and byte 100. -/
theorem access_virus_descriptors_range_closed_7bit_witness :
    filter_cutoff.value_range.1 ≤ rawFromByte filter_cutoff 100
    ∧ rawFromByte filter_cutoff 100 ≤ filter_cutoff.value_range.2 :=
  access_virus_descriptors_range_closed_7bit ("filter_cutoff", filter_cutoff)
    (by decide) 100 (by decide)

/-! ### Parameter Codec, modelled from the spec

The Parameter Codec lives in sysex_toolkit/core.py, which the packaging
script extracts from a sysex_toolkit.py file that is not among the
repository sources; only its callers, tests and the schema configuration
are.  The operations below are therefore modelled from the specification's
words (sections 4.3 and 8): decode reads the byte at the descriptor's
offset, applies bit_mask and right-shifts by bit_shift; encode writes the
raw value at the bit-exact location by read-modify-write on the containing
byte — clear the masked bits, then or-in the shifted value — and produces a
complete framed message with start marker, fixed header bytes from the
schema, the body, and the end marker; normalized values are obtained by
linear rescaling of the raw value from the declared range onto [0, 1]. -/

/-- Modelled from the spec: the read-modify-write update of the byte
containing a parameter's bit field (core.py encode, absent from the
sources) — unrelated bits of the old byte value are preserved, the masked
field is replaced by the shifted raw value. -/
def encodeByte (d : ParamDescriptor) (old v : Nat) : Nat :=
  (old &&& (255 ^^^ d.bit_mask)) ||| ((v <<< d.bit_shift) &&& d.bit_mask)

/-- Modelled from the spec: the fixed header bytes of a schema's framed
message (core.py encode, absent from the sources) — the Device Identifier
triplet followed by device and model ids. -/
def headerBytes (sc : SysExSchema) : List Nat :=
  sc.manufacturer_id ++ [sc.device_id, sc.model_id]

/-- Modelled from the spec: encoding the single mapping from one parameter
name to raw value v (core.py encode, absent from the sources) — a zeroed
body of the schema's total length receives the read-modify-write update at
the descriptor's byte offset, framed by the start marker, the fixed header
bytes and the end marker. -/
def encodeSingle (sc : SysExSchema) (d : ParamDescriptor) (v : Nat) : List Nat :=
  let body := (List.replicate sc.total_length 0).set d.byte_offset
    (encodeByte d 0 v)
  240 :: (headerBytes sc ++ (body ++ [247]))

/-- Modelled from the spec: the message body of a framed message — the bytes
between the fixed header and the end marker, of the schema's total length. -/
def messageBody (sc : SysExSchema) (msg : List Nat) : List Nat :=
  (msg.drop (1 + (headerBytes sc).length)).take sc.total_length

/-- Modelled from the spec: decoding one parameter from a framed message
(core.py decode, absent from the sources) — read the body byte at the
descriptor's offset, apply bit_mask, right-shift by bit_shift. -/
def decodeParam (sc : SysExSchema) (d : ParamDescriptor) (msg : List Nat) : Nat :=
  rawFromByte d ((messageBody sc msg).getD d.byte_offset 0)

/-- Modelled from the spec: linear rescaling of a raw value from the declared
range onto [0, 1], in exact rational arithmetic. -/
def normalizeRaw (d : ParamDescriptor) (v : ℚ) : ℚ :=
  (v - (d.value_range.1 : ℚ)) / ((d.value_range.2 : ℚ) - (d.value_range.1 : ℚ))

/-- Modelled from the spec: linear rescaling of a normalized value in [0, 1]
back onto the declared raw range. -/
def denormalize (d : ParamDescriptor) (x : ℚ) : ℚ :=
  (d.value_range.1 : ℚ) + x * ((d.value_range.2 : ℚ) - (d.value_range.1 : ℚ))

/-- Shifting two values left by the same amount commutes with the bitwise
and. -/
theorem shiftLeft_and_shiftLeft (v m s : Nat) :
    (v <<< s) &&& (m <<< s) = (v &&& m) <<< s := by
  apply Nat.eq_of_testBit_eq
  intro i
  simp only [Nat.testBit_and, Nat.testBit_shiftLeft]
  by_cases h : s ≤ i <;> simp [h]

/-- Writing a field value into a zeroed byte and reading it back through the
same contiguous mask recovers the value. -/
theorem encodeByte_decodeRaw_zero (d : ParamDescriptor) (w v : Nat)
    (hmask : d.bit_mask = (2 ^ w - 1) <<< d.bit_shift)
    (hv : v < 2 ^ w) :
    rawFromByte d (encodeByte d 0 v) = v := by
  rw [encodeByte, rawFromByte, Nat.zero_and, Nat.zero_or, Nat.and_assoc,
    Nat.and_self, hmask, shiftLeft_and_shiftLeft, Nat.shiftLeft_shiftRight,
    Nat.and_pow_two_sub_one_eq_mod, Nat.mod_eq_of_lt hv]

/-- C1: for every schema, every parameter descriptor in it whose bit field is
a contiguous w-bit field at bit_shift wide enough for the declared range, and
every raw value v within the declared range, decoding the message produced by
encoding the single mapping for that parameter yields exactly v; and the
value obtained after one rescale of v into [0, 1] and back differs from the
original by at most 1e-6 (in exact rational arithmetic it is equal). -/
theorem codec_single_parameter_round_trip
    (sc : SysExSchema) (nm : String) (d : ParamDescriptor) (w v : Nat)
    (hmem : (nm, d) ∈ sc.parameters)
    (hmask : d.bit_mask = (2 ^ w - 1) <<< d.bit_shift)
    (hwidth : d.value_range.2 < 2 ^ w)
    (hofs : d.byte_offset < sc.total_length)
    (hlo : d.value_range.1 ≤ v) (hhi : v ≤ d.value_range.2)
    (hrange : d.value_range.1 < d.value_range.2) :
    decodeParam sc d (encodeSingle sc d v) = v
    ∧ |denormalize d (normalizeRaw d (v : ℚ)) - (v : ℚ)| ≤ 1 / 1000000 := by
  constructor
  · rw [decodeParam, encodeSingle, messageBody]
    have hdrop : ((240 :: (headerBytes sc
          ++ ((List.replicate sc.total_length 0).set d.byte_offset
                (encodeByte d 0 v) ++ [247]))).drop (1 + (headerBytes sc).length))
        = (List.replicate sc.total_length 0).set d.byte_offset
            (encodeByte d 0 v) ++ [247] := by
      rw [Nat.add_comm 1 (headerBytes sc).length, List.drop_succ_cons]
      exact List.drop_left _ _
    rw [hdrop]
    have hblen : ((List.replicate sc.total_length 0).set d.byte_offset
        (encodeByte d 0 v)).length = sc.total_length := by
      simp
    have htake : (((List.replicate sc.total_length 0).set d.byte_offset
          (encodeByte d 0 v)) ++ [247]).take sc.total_length
        = (List.replicate sc.total_length 0).set d.byte_offset
            (encodeByte d 0 v) := by
      exact List.take_left' hblen
    rw [htake]
    have hget : ((List.replicate sc.total_length 0).set d.byte_offset
        (encodeByte d 0 v)).getD d.byte_offset 0 = encodeByte d 0 v := by
      rw [List.getD_eq_getElem _ _ (by simpa [hblen] using hofs)]
      simp
    rw [hget]
    exact encodeByte_decodeRaw_zero d w v hmask (by omega)
  · rw [denormalize, normalizeRaw, div_mul_cancel₀]
    · simp
    · have hq : (d.value_range.1 : ℚ) < (d.value_range.2 : ℚ) := by
        exact_mod_cast hrange
      exact sub_ne_zero_of_ne (ne_of_gt hq)

/-- Witness for C1 at the shipped filter_cutoff descriptor and raw value 64. -/
theorem codec_single_parameter_round_trip_witness :
    decodeParam accessVirusSchema filter_cutoff
        (encodeSingle accessVirusSchema filter_cutoff 64) = 64
    ∧ |denormalize filter_cutoff (normalizeRaw filter_cutoff (64 : ℚ))
        - (64 : ℚ)| ≤ 1 / 1000000 :=
  codec_single_parameter_round_trip accessVirusSchema "filter_cutoff"
    filter_cutoff 8 64 (by decide) (by decide) (by decide) (by decide)
    (by decide) (by decide) (by decide)

/-- Modelled from the spec: encoding one parameter value into an existing
message body (core.py encode, absent from the sources) — the byte at the
descriptor's offset is updated by read-modify-write, every other byte is
untouched. -/
def encodeIntoBody (body : List Nat) (d : ParamDescriptor) (v : Nat) : List Nat :=
  body.set d.byte_offset (encodeByte d (body.getD d.byte_offset 0) v)

/-- Modelled from the spec: decoding one parameter from a message body
(core.py decode, absent from the sources). -/
def decodeFromBody (body : List Nat) (d : ParamDescriptor) : Nat :=
  rawFromByte d (body.getD d.byte_offset 0)

/-- The read-modify-write update through mask A leaves every bit covered by a
disjoint mask B (a valid byte mask, below 256) unchanged. -/
theorem encodeByte_and_disjoint (A : ParamDescriptor) (mB old v : Nat)
    (hdisj : A.bit_mask &&& mB = 0) (hB : mB < 256) :
    encodeByte A old v &&& mB = old &&& mB := by
  apply Nat.eq_of_testBit_eq
  intro i
  simp only [encodeByte, Nat.testBit_and, Nat.testBit_or, Nat.testBit_xor]
  by_cases hbB : mB.testBit i
  · have hiA : A.bit_mask.testBit i = false := by
      have h0 := congrArg (fun x => x.testBit i) hdisj
      simp only [Nat.testBit_and, Nat.zero_testBit] at h0
      cases hA : A.bit_mask.testBit i
      · rfl
      · rw [hA, hbB] at h0
        simp at h0
    have hi8 : i < 8 := by
      by_contra hge
      have h28 : (256 : Nat) ≤ 2 ^ i := by
        calc (256 : Nat) = 2 ^ 8 := by norm_num
        _ ≤ 2 ^ i := Nat.pow_le_pow_right (by norm_num) (by omega)
      have hlt : mB < 2 ^ i := lt_of_lt_of_le hB h28
      rw [Nat.testBit_lt_two_pow hlt] at hbB
      simp at hbB
    have h255 : (255 : Nat).testBit i = true := by
      interval_cases i <;> decide
    rw [hbB, hiA, h255]
    simp
  · simp only [hbB, Bool.and_false]

/-- C2: for two parameter descriptors A and B sharing a containing byte with
disjoint bit masks (B's being a valid byte mask), and any legal value for A,
encoding A's value into a message body by read-modify-write leaves the
decoded value of the sibling parameter B unchanged. -/
theorem encode_preserves_sibling_parameter
    (A B : ParamDescriptor) (body : List Nat) (v : Nat)
    (hshare : A.byte_offset = B.byte_offset)
    (hdisj : A.bit_mask &&& B.bit_mask = 0)
    (hBmask : B.bit_mask < 256)
    (hlo : A.value_range.1 ≤ v) (hhi : v ≤ A.value_range.2) :
    decodeFromBody (encodeIntoBody body A v) B = decodeFromBody body B := by
  rw [decodeFromBody, decodeFromBody, encodeIntoBody, rawFromByte, rawFromByte]
  by_cases hofs : A.byte_offset < body.length
  · have hget : (body.set A.byte_offset
        (encodeByte A (body.getD A.byte_offset 0) v)).getD B.byte_offset 0
        = encodeByte A (body.getD A.byte_offset 0) v := by
      rw [← hshare, List.getD_eq_getElem _ _ (by simpa using hofs)]
      simp
    rw [hget, ← hshare, encodeByte_and_disjoint A B.bit_mask _ v hdisj hBmask]
  · rw [List.set_eq_of_length_le (by omega)]

/-- Witness for C2: two four-bit fields packed into one byte — A in the high
nibble, B in the low nibble — with A's legal value 9 written over a body byte
already holding 3 in B's field. -/
def nibbleA : ParamDescriptor :=
  { byte_offset := 0, bit_mask := 240, bit_shift := 4, value_range := (0, 15),
    category := "packed", cc_number := 0, data_type := "uint8",
    description := "high nibble" }

/-- The low-nibble sibling of nibbleA. -/
def nibbleB : ParamDescriptor :=
  { byte_offset := 0, bit_mask := 15, bit_shift := 0, value_range := (0, 15),
    category := "packed", cc_number := 0, data_type := "uint8",
    description := "low nibble" }

/-- Witness for C2 at the concrete packed-nibble descriptors. -/
theorem encode_preserves_sibling_parameter_witness :
    decodeFromBody (encodeIntoBody [3] nibbleA 9) nibbleB
      = decodeFromBody [3] nibbleB :=
  encode_preserves_sibling_parameter nibbleA nibbleB [3] 9 (by decide)
    (by decide) (by decide) (by decide) (by decide)

end SysexToolkit
